import Mathlib

/-!
Verification of the symbol-interning core (src/symbol.c): the hash, the
concurrent search/insert tree `symtab`, the gensym counter and the public
entry points.  The C globals (`symtab`, `gs_ctr`) are threaded explicitly as
state; machine words are `Nat` with arithmetic reduced mod `2 ^ 64` where the
C performs wrapping `size_t`/`uintptr_t` operations.
-/

namespace SymbolC

/-- Width constant: `uintptr_t` / `size_t` are 64 bits wide. -/
def U64 : Nat := 2 ^ 64

/-- `INTPTR_MAX` on a 64-bit platform. -/
def INTPTR_MAX : Nat := 2 ^ 63 - 1

/-- Modelled from the spec: `sizeof(jl_taggedvalue_t)` — the one-word GC object
header; the type is declared outside this repository. -/
def sizeof_jl_taggedvalue_t : Nat := 8

/-- Modelled from the spec: `sizeof(jl_sym_t)` — the node header holding two
child pointers and the hash word; the struct is declared outside this
repository. -/
def sizeof_jl_sym_t : Nat := 24

/-- `MAX_SYM_LEN` (symbol.c:21). -/
def MAX_SYM_LEN : Nat := INTPTR_MAX - sizeof_jl_taggedvalue_t - sizeof_jl_sym_t - 1

/-- Read byte `i` of a buffer; past the end of the modelled bytes the backing
store holds the 0 terminator written by `mk_symbol`. -/
def byteAt (l : List Nat) (i : Nat) : Nat := l.getD i 0

/-- The first `len` bytes are all non-NUL (the caller contract asserted at
symbol.c:86). -/
def NoNulWithin (l : List Nat) (len : Nat) : Prop := ∀ j, j < len → byteAt l j ≠ 0

instance (l : List Nat) (len : Nat) : Decidable (NoNulWithin l len) := by
  unfold NoNulWithin; infer_instance

/-- C `strlen`: number of bytes before the first 0 terminator. -/
def cstrlen : List Nat → Nat
  | [] => 0
  | b :: rest => if b = 0 then 0 else cstrlen rest + 1

/-- Modelled from the spec: `memhash` (support library, not in src) — a
content-sensitive 64-bit hash of the first `len` bytes; modelled as FNV-1a. -/
def memhash (str : List Nat) (len : Nat) : Nat :=
  (List.range len).foldl (fun h i => ((h ^^^ byteAt str i) * 1099511628211) % U64)
    14695981039346656037

/-- Modelled from the spec: `inthash` (julia_internal.h, not in src) — the
final avalanche mixing step; modelled as a 64-bit xorshift-multiply
finalizer. -/
def inthash (k : Nat) : Nat :=
  let a := ((k ^^^ (k >>> 30)) * 13787848793156543929) % U64
  let b := ((a ^^^ (a >>> 27)) * 10723151780598845931) % U64
  (b ^^^ (b >>> 31)) % U64

/-- `hash_symbol` (symbol.c:23): `inthash(-(memhash(str,len) ^ ~0/3*2))`. -/
def hash_symbol (str : List Nat) (len : Nat) : Nat :=
  let oid := (memhash str len ^^^ (U64 - 1) / 3 * 2) % U64
  inthash ((U64 - oid) % U64)

/-- 64-bit wraparound subtraction `a - b` in `uintptr_t` arithmetic. -/
def wsub (a b : Nat) : Nat := (a % U64 + (U64 - b % U64)) % U64

/-- Reinterpret a 64-bit value as a signed `intptr_t`. -/
def toSigned (d : Nat) : Int :=
  if d < 2 ^ 63 then (d : Int) else (d : Int) - (U64 : Int)

/-- C `strncmp` over byte buffers, comparing from index `i`, at most `n`
bytes, stopping at a 0 terminator in either buffer. -/
def strncmpAux (a b : List Nat) : Nat → Nat → Int
  | _, 0 => 0
  | i, n + 1 =>
    let c1 := byteAt a i
    let c2 := byteAt b i
    if c1 = c2 then (if c1 = 0 then 0 else strncmpAux a b (i + 1) n)
    else (c1 : Int) - (c2 : Int)

/-- C `strncmp(a, b, n)`. -/
def strncmp (a b : List Nat) (n : Nat) : Int := strncmpAux a b 0 n

/-- A `jl_sym_t` node: an allocation identity (modelling the node's address),
the precomputed hash, and the stored name bytes (the 0 terminator and the
zeroed padding are implicit through `byteAt`). -/
structure Sym where
  id : Nat
  hash : Nat
  name : List Nat
deriving DecidableEq, Repr

/-- The intern tree shape: the `left`/`right` children of each node, `nil` for
a NULL child pointer. -/
inductive STree where
  | nil : STree
  | node (sym : Sym) (left right : STree) : STree
deriving DecidableEq, Repr

/-- A traversal direction; a list of directions is a path to a child slot. -/
inductive Dir where
  | left
  | right
deriving DecidableEq, Repr

/-- The hit test of `symtab_lookup` at one node (symbol.c:58-65): hash words
equal, `strncmp` returns 0 and the stored name ends exactly at `len`. -/
def symMatch (h : Nat) (str : List Nat) (len : Nat) (sym : Sym) : Prop :=
  toSigned (wsub h sym.hash) = 0 ∧ strncmp str sym.name len = 0 ∧ byteAt sym.name len = 0

instance (h : Nat) (str : List Nat) (len : Nat) (sym : Sym) :
    Decidable (symMatch h str len sym) := by
  unfold symMatch; infer_instance

/-- The signed comparison value `x` steering the descent at one node
(symbol.c:58-70): the wrapped hash difference, refined by `strncmp` when the
hash words tie. -/
def cmpAt (h : Nat) (str : List Nat) (len : Nat) (sym : Sym) : Int :=
  let x0 := toSigned (wsub h sym.hash)
  if x0 = 0 then strncmp str sym.name len else x0

/-- The loop of `symtab_lookup` (symbol.c:51-76) run on the subtree below one
slot: returns the matching node if any, together with the path from the given
subtree to the last slot examined (the C version returns that slot through
`*slot`). -/
def symtab_lookup_h (h : Nat) (str : List Nat) (len : Nat) : STree → Option Sym × List Dir
  | .nil => (none, [])
  | .node sym l r =>
    if symMatch h str len sym then (some sym, [])
    else if cmpAt h str len sym < 0 then
      ((symtab_lookup_h h str len l).1, Dir.left :: (symtab_lookup_h h str len l).2)
    else
      ((symtab_lookup_h h str len r).1, Dir.right :: (symtab_lookup_h h str len r).2)

/-- `symtab_lookup` (symbol.c:51): computes the probe hash once, then walks. -/
def symtab_lookup (str : List Nat) (len : Nat) (t : STree) : Option Sym × List Dir :=
  symtab_lookup_h (hash_symbol str len) str len t

/-- Store a subtree into the slot reached by `path` (the C insert publishes
the new node through the returned `slot` pointer; symbol.c:97). -/
def storeAt : STree → List Dir → STree → STree
  | _, [], s => s
  | .node sym l r, Dir.left :: p, s => .node sym (storeAt l p s) r
  | .node sym l r, Dir.right :: p, s => .node sym l (storeAt r p s)
  | .nil, _ :: _, _ => .nil

/-- The global table state: the tree root `symtab` plus an allocation counter
giving each `mk_symbol` a fresh identity (modelling the distinct addresses
handed out by `jl_gc_permobj`). -/
structure SymTab where
  tree : STree
  next : Nat
deriving DecidableEq, Repr

/-- The initial state: `symtab == NULL` (symbol.c:19). -/
def emptyTab : SymTab := ⟨.nil, 0⟩

/-- The two caller-input error conditions raised by this file. -/
inductive SymErr where
  | NameTooLong
  | EmbeddedNul
deriving DecidableEq, Repr

/-- `mk_symbol` (symbol.c:35): a fresh node with NULL children, the
precomputed hash, and `len` bytes copied then 0-terminated. -/
def mk_symbol (str : List Nat) (len : Nat) (id : Nat) : Sym :=
  ⟨id, hash_symbol str len, str.take len⟩

/-- `_jl_symbol` (symbol.c:78).  The double-checked re-lookup under the mutex
(lines 90-95) finds nothing new in this sequential model, so the path
collapses to: length check, lookup, publish into the located slot. -/
def _jl_symbol (st : SymTab) (str : List Nat) (len : Nat) : SymTab × Except SymErr Sym :=
  if len > MAX_SYM_LEN then (st, .error .NameTooLong)
  else
    let found := symtab_lookup str len st.tree
    match found.1 with
    | some node => (st, .ok node)
    | none =>
      let sym := mk_symbol str len st.next
      (⟨storeAt st.tree found.2 (.node sym .nil .nil), st.next + 1⟩, .ok sym)

/-- `jl_symbol` (symbol.c:103). -/
def jl_symbol (st : SymTab) (str : List Nat) : SymTab × Except SymErr Sym :=
  _jl_symbol st str (cstrlen str)

/-- `jl_symbol_lookup` (symbol.c:108): a pure find, no insertion. -/
def jl_symbol_lookup (st : SymTab) (str : List Nat) : Option Sym :=
  (symtab_lookup str (cstrlen str) st.tree).1

/-- `jl_symbol_n` (symbol.c:113). -/
def jl_symbol_n (st : SymTab) (str : List Nat) (len : Nat) : SymTab × Except SymErr Sym :=
  if (str.take len).contains 0 then (st, .error .EmbeddedNul)
  else _jl_symbol st str len

/-- The registry: the table together with the gensym counter `gs_ctr`
(symbol.c:125), a `uint32_t` kept below `2 ^ 32`. -/
structure Registry where
  tab : SymTab
  gs_ctr : Nat
deriving DecidableEq, Repr

def emptyReg : Registry := ⟨emptyTab, 0⟩

/-- `jl_get_gs_ctr` (symbol.c:126). -/
def jl_get_gs_ctr (r : Registry) : Nat := r.gs_ctr

/-- `jl_set_gs_ctr` (symbol.c:127); the argument is truncated to `uint32_t`. -/
def jl_set_gs_ctr (r : Registry) (ctr : Nat) : Registry :=
  ⟨r.tab, ctr % 2 ^ 32⟩

/-- Modelled from the spec: `uint2str` (support library, not in src) — the
decimal digits of `num`, most significant first, emitting at least one digit
as the C do-while loop does. -/
def uint2strAux : Nat → Nat → List Nat → List Nat
  | 0, _, acc => acc
  | fuel + 1, num, acc =>
    let acc2 := (48 + num % 10) :: acc
    if num / 10 > 0 then uint2strAux fuel (num / 10) acc2 else acc2

/-- The byte string `uint2str` produces for `num` in base 10; 32 iterations
of structural fuel cover every 64-bit value (at most 20 decimal digits). -/
def uint2strBytes (num : Nat) : List Nat := uint2strAux 32 num []

/-- `jl_gensym` (symbol.c:129): intern `"##" ++ digits(ctr)` where `ctr` is
the pre-increment value of the shared 32-bit counter. -/
def jl_gensym (r : Registry) : Registry × Except SymErr Sym :=
  let ctr := r.gs_ctr
  let r1 : Registry := ⟨r.tab, (ctr + 1) % 2 ^ 32⟩
  let name := 35 :: 35 :: uint2strBytes ctr
  let res := jl_symbol r1.tab name
  (⟨res.1, r1.gs_ctr⟩, res.2)

/-- The common tail of `jl_tagged_gensym` (symbol.c:147-163): the length check
on `alloc_len = sizeof(gs_name) + len + 3 = len + 17`, then the fetch-add and
the name `"##" ++ tag ++ "#" ++ digits` of length `len + 3 + ndigits`. -/
def tagged_gensym_core (r : Registry) (str : List Nat) (len : Nat) :
    Registry × Except SymErr Sym :=
  let alloc_len := 14 + len + 3
  if len > MAX_SYM_LEN ∨ alloc_len > MAX_SYM_LEN then (r, .error .NameTooLong)
  else
    let ctr := r.gs_ctr
    let r1 : Registry := ⟨r.tab, (ctr + 1) % 2 ^ 32⟩
    let digits := uint2strBytes ctr
    let name := 35 :: 35 :: (str.take len ++ 35 :: digits)
    let res := _jl_symbol r1.tab name (len + 3 + digits.length)
    (⟨res.1, r1.gs_ctr⟩, res.2)

/-- `jl_tagged_gensym` (symbol.c:139): a tag length of `(size_t)-1` means
"NUL-terminated tag" and skips the embedded-NUL scan; otherwise the first
`len` tag bytes are scanned for a 0 byte. -/
def jl_tagged_gensym (r : Registry) (str : List Nat) (len : Nat) :
    Registry × Except SymErr Sym :=
  if len = U64 - 1 then tagged_gensym_core r str (cstrlen str)
  else if (str.take len).contains 0 then (r, .error .EmbeddedNul)
  else tagged_gensym_core r str len

/-- `symbol_nbytes` (symbol.c:30): `(sizeof(jl_sym_t) + len + 1 + 7) & -8` in
`size_t` arithmetic. -/
def symbol_nbytes (len : Nat) : Nat :=
  ((sizeof_jl_sym_t + len + 1 + 7) % U64) &&& (U64 - 8)

/-- All names stored in a subtree. -/
def namesOf : STree → List (List Nat)
  | .nil => []
  | .node sym l r => sym.name :: (namesOf l ++ namesOf r)

/-- Table well-formedness: no stored name contains the terminator byte.  It
holds for the empty table and is preserved by every insert whose probe obeys
the caller contract. -/
def treeNamesOK : STree → Bool
  | .nil => true
  | .node sym l r => !sym.name.contains 0 && treeNamesOK l && treeNamesOK r

/-- The interned name carried by a successful result. -/
def okName : Except SymErr Sym → Option (List Nat)
  | .ok s => some s.name
  | .error _ => none

/-- The interned node carried by a successful result. -/
def okSym : Except SymErr Sym → Option Sym
  | .ok s => some s
  | .error _ => none

/-! ### Arithmetic facts about the 64-bit helpers -/

theorem U64_pos : 0 < U64 := by norm_num [U64]

theorem wsub_lt (a b : Nat) : wsub a b < U64 :=
  Nat.mod_lt _ U64_pos

theorem wsub_self (a : Nat) : wsub a a = 0 := by
  unfold wsub
  have h1 : a % U64 < U64 := Nat.mod_lt _ U64_pos
  have h2 : a % U64 + (U64 - a % U64) = U64 := by omega
  rw [h2, Nat.mod_self]

theorem toSigned_eq_zero_iff {d : Nat} (hd : d < U64) : toSigned d = 0 ↔ d = 0 := by
  unfold toSigned
  split
  · exact_mod_cast Iff.rfl
  · constructor
    · intro h
      exfalso
      have : (d : Int) = (U64 : Int) := by linarith
      have : d = U64 := by exact_mod_cast this
      omega
    · intro h; omega

theorem toSigned_neg_iff {d : Nat} (hd : d < U64) : toSigned d < 0 ↔ 2 ^ 63 ≤ d := by
  unfold toSigned
  split
  · constructor
    · intro h
      exfalso
      have : (0 : Int) ≤ (d : Int) := Int.natCast_nonneg d
      omega
    · intro h; omega
  · constructor
    · intro _; omega
    · intro _
      have : (d : Int) < (U64 : Int) := by exact_mod_cast hd
      omega

theorem hash_symbol_lt (str : List Nat) (len : Nat) : hash_symbol str len < U64 := by
  unfold hash_symbol inthash
  exact Nat.mod_lt _ U64_pos

/-! ### Byte-buffer facts -/

theorem byteAt_nil (i : Nat) : byteAt [] i = 0 := by
  cases i <;> rfl

theorem byteAt_cons_zero (b : Nat) (l : List Nat) : byteAt (b :: l) 0 = b := rfl

theorem byteAt_cons_succ (b : Nat) (l : List Nat) (i : Nat) :
    byteAt (b :: l) (i + 1) = byteAt l i := rfl

theorem byteAt_len_le {l : List Nat} {i : Nat} (h : l.length ≤ i) : byteAt l i = 0 :=
  List.getD_eq_default _ _ h

theorem byteAt_get {l : List Nat} {i : Nat} (h : i < l.length) : byteAt l i = l[i] :=
  List.getD_eq_getElem _ _ h

theorem byteAt_take {l : List Nat} {n i : Nat} (h : i < n) :
    byteAt (l.take n) i = byteAt l i := by
  induction l generalizing n i with
  | nil => simp [byteAt]
  | cons b bs ih =>
    cases n with
    | zero => omega
    | succ m =>
      cases i with
      | zero => rfl
      | succ j =>
        simp only [List.take_succ_cons, byteAt_cons_succ]
        exact ih (by omega)

theorem byteAt_mem {l : List Nat} {i : Nat} (h : byteAt l i ≠ 0) : byteAt l i ∈ l := by
  by_cases hi : i < l.length
  · rw [byteAt_get hi]; exact List.getElem_mem hi
  · exact absurd (byteAt_len_le (by omega)) h

theorem nonul_len_le {l : List Nat} {len : Nat} (h : NoNulWithin l len) : len ≤ l.length := by
  by_contra hc
  exact h l.length (by omega) (byteAt_len_le (Nat.le_refl _))

theorem nonul_of_not_mem {l : List Nat} (h : 0 ∉ l) : NoNulWithin l l.length := by
  intro j hj hz
  apply h
  rw [byteAt_get hj] at hz
  exact hz ▸ List.getElem_mem hj

theorem contains_false_not_mem {l : List Nat} (h : l.contains 0 = false) : 0 ∉ l := by
  intro hm
  simp [List.contains, List.elem_eq_mem, hm] at h

theorem not_mem_contains_false {l : List Nat} (h : 0 ∉ l) : l.contains 0 = false := by
  simp [List.contains, List.elem_eq_mem, h]

/-! ### `strncmp` facts -/

theorem strncmpAux_eq_zero_of_agree (a b : List Nat) :
    ∀ (n i : Nat), (∀ j, i ≤ j → j < i + n → byteAt a j = byteAt b j) →
      strncmpAux a b i n = 0 := by
  intro n
  induction n with
  | zero => intro i _; rfl
  | succ m ih =>
    intro i hagree
    have h0 : byteAt a i = byteAt b i := hagree i (Nat.le_refl _) (by omega)
    simp only [strncmpAux]
    rw [if_pos h0]
    by_cases hz : byteAt a i = 0
    · rw [if_pos hz]
    · rw [if_neg hz]
      exact ih (i + 1) fun j hj1 hj2 => hagree j (by omega) (by omega)

theorem strncmpAux_zero_agree (a b : List Nat) :
    ∀ (n i : Nat), strncmpAux a b i n = 0 →
      (∀ j, i ≤ j → j < i + n → byteAt a j ≠ 0) →
      ∀ j, i ≤ j → j < i + n → byteAt b j = byteAt a j := by
  intro n
  induction n with
  | zero => intro i _ _ j hj1 hj2; omega
  | succ m ih =>
    intro i hz hnn j hj1 hj2
    have hne : byteAt a i ≠ 0 := hnn i (Nat.le_refl _) (by omega)
    by_cases heq : byteAt a i = byteAt b i
    · simp only [strncmpAux] at hz
      rw [if_pos heq, if_neg hne] at hz
      rcases Nat.eq_or_lt_of_le hj1 with h | h
      · exact h ▸ heq.symm
      · exact ih (i + 1) hz (fun k hk1 hk2 => hnn k (by omega) (by omega)) j h (by omega)
    · exfalso
      simp only [strncmpAux] at hz
      rw [if_neg heq] at hz
      have h1 : (byteAt a i : Int) = (byteAt b i : Int) := by omega
      exact heq (by exact_mod_cast h1)

theorem strncmp_self_take (str : List Nat) (len : Nat) :
    strncmp str (str.take len) len = 0 := by
  exact strncmpAux_eq_zero_of_agree _ _ len 0
    fun j hj1 hj2 => (byteAt_take (by omega)).symm

/-- The hit condition of `symtab_lookup` pins the stored name down to exactly
the probe's first `len` bytes, provided neither side holds an embedded NUL. -/
theorem match_name_eq {str nm : List Nat} {len : Nat}
    (hcmp : strncmp str nm len = 0) (hterm : byteAt nm len = 0)
    (hs : NoNulWithin str len) (hn : 0 ∉ nm) : nm = str.take len := by
  have hagree : ∀ j, j < len → byteAt nm j = byteAt str j := by
    intro j hj
    exact strncmpAux_zero_agree str nm len 0 hcmp
      (fun k hk1 hk2 => hs k (by omega)) j (by omega) (by omega)
  have hlen_str : len ≤ str.length := nonul_len_le hs
  have hnm_ge : len ≤ nm.length := by
    by_contra hc
    have h1 : byteAt nm nm.length = 0 := byteAt_len_le (Nat.le_refl _)
    have h2 : byteAt nm nm.length = byteAt str nm.length := hagree _ (by omega)
    exact hs nm.length (by omega) (h2 ▸ h1)
  have hnm_le : nm.length ≤ len := by
    by_contra hc
    have hlt : len < nm.length := by omega
    have h1 : byteAt nm len = nm[len] := byteAt_get hlt
    have h2 : nm[len] = 0 := by rw [← h1, hterm]
    exact hn (h2 ▸ List.getElem_mem hlt)
  have hlen : nm.length = len := by omega
  apply List.ext_getElem
  · simp [hlen, List.length_take]; omega
  · intro i h1 h2
    have hi : i < len := by omega
    have e1 : nm[i] = byteAt nm i := (byteAt_get (by omega)).symm
    have e2 : (str.take len)[i] = byteAt (str.take len) i := (byteAt_get h2).symm
    rw [e1, e2, byteAt_take hi, hagree i hi]

/-! ### Tree lemmas -/

/-- A freshly built node for `(str, len)` satisfies the hit condition of the
very probe that created it. -/
theorem symMatch_mk (str : List Nat) (len id : Nat) :
    symMatch (hash_symbol str len) str len (mk_symbol str len id) := by
  refine ⟨?_, ?_, ?_⟩
  · show toSigned (wsub (hash_symbol str len) (hash_symbol str len)) = 0
    rw [wsub_self]
    rfl
  · exact strncmp_self_take str len
  · show byteAt (str.take len) len = 0
    exact byteAt_len_le (by rw [List.length_take]; omega)

/-- A node matched by the probe `(str, len)` stores exactly `str.take len`,
given the caller contract and table well-formedness. -/
theorem symMatch_name_eq {h : Nat} {str : List Nat} {len : Nat} {sym : Sym}
    (hm : symMatch h str len sym) (hs : NoNulWithin str len)
    (hn : sym.name.contains 0 = false) : sym.name = str.take len :=
  match_name_eq hm.2.1 hm.2.2 hs (contains_false_not_mem hn)

theorem lookup_h_found {h : Nat} {str : List Nat} {len : Nat} :
    ∀ {t : STree} {sym : Sym}, treeNamesOK t = true → NoNulWithin str len →
      (symtab_lookup_h h str len t).1 = some sym →
      sym.name = str.take len ∧ sym.name ∈ namesOf t := by
  intro t
  induction t with
  | nil => intro sym _ _ hfind; simp [symtab_lookup_h] at hfind
  | node s l r ihl ihr =>
    intro sym hok hs hfind
    have hoks : (!s.name.contains 0 && treeNamesOK l && treeNamesOK r) = true := hok
    simp only [Bool.and_eq_true, Bool.not_eq_true'] at hoks
    by_cases hm : symMatch h str len s
    · simp only [symtab_lookup_h, if_pos hm] at hfind
      cases hfind
      exact ⟨symMatch_name_eq hm hs hoks.1.1, by simp [namesOf]⟩
    · by_cases hc : cmpAt h str len s < 0
      · simp only [symtab_lookup_h, if_neg hm, if_pos hc] at hfind
        obtain ⟨h1, h2⟩ := ihl hoks.1.2 hs hfind
        exact ⟨h1, by simp [namesOf]; right; left; exact h2⟩
      · simp only [symtab_lookup_h, if_neg hm, if_neg hc] at hfind
        obtain ⟨h1, h2⟩ := ihr hoks.2 hs hfind
        exact ⟨h1, by simp [namesOf]; right; right; exact h2⟩

/-- Looking the same probe up again after its node was published into the
slot located by the failed lookup finds exactly that node. -/
theorem lookup_h_insert {h : Nat} {str : List Nat} {len : Nat} {new : Sym}
    (hmatch : symMatch h str len new) :
    ∀ {t : STree}, (symtab_lookup_h h str len t).1 = none →
      symtab_lookup_h h str len
          (storeAt t (symtab_lookup_h h str len t).2 (.node new .nil .nil))
        = (some new, (symtab_lookup_h h str len t).2) := by
  intro t
  induction t with
  | nil =>
    intro _
    simp [symtab_lookup_h, storeAt, if_pos hmatch]
  | node s l r ihl ihr =>
    intro hmiss
    by_cases hm : symMatch h str len s
    · simp [symtab_lookup_h, if_pos hm] at hmiss
    · by_cases hc : cmpAt h str len s < 0
      · simp only [symtab_lookup_h, if_neg hm, if_pos hc] at hmiss ⊢
        rw [ihl hmiss]
      · simp only [symtab_lookup_h, if_neg hm, if_neg hc] at hmiss ⊢
        rw [ihr hmiss]

theorem treeNamesOK_storeAt {s : STree} (hs : treeNamesOK s = true) :
    ∀ {t : STree} {p : List Dir}, treeNamesOK t = true →
      treeNamesOK (storeAt t p s) = true := by
  intro t
  induction t with
  | nil => intro p _; cases p <;> simp [storeAt, hs, treeNamesOK]
  | node sym l r ihl ihr =>
    intro p hok
    have hoks : (!sym.name.contains 0 && treeNamesOK l && treeNamesOK r) = true := hok
    simp only [Bool.and_eq_true] at hoks
    cases p with
    | nil => exact hs
    | cons d p2 =>
      cases d with
      | left =>
        simp only [storeAt, treeNamesOK, Bool.and_eq_true]
        exact ⟨⟨hoks.1.1, ihl hoks.1.2⟩, hoks.2⟩
      | right =>
        simp only [storeAt, treeNamesOK, Bool.and_eq_true]
        exact ⟨⟨hoks.1.1, hoks.1.2⟩, ihr hoks.2⟩

theorem namesOf_storeAt {s : STree} {x : List Nat} :
    ∀ {t : STree} {p : List Dir}, x ∈ namesOf (storeAt t p s) →
      x ∈ namesOf t ∨ x ∈ namesOf s := by
  intro t
  induction t with
  | nil =>
    intro p hx
    cases p with
    | nil => exact Or.inr hx
    | cons d p2 => simp [storeAt, namesOf] at hx
  | node sym l r ihl ihr =>
    intro p hx
    cases p with
    | nil => exact Or.inr hx
    | cons d p2 =>
      cases d with
      | left =>
        simp only [storeAt, namesOf, List.mem_cons, List.mem_append] at hx
        rcases hx with h1 | h2 | h3
        · exact Or.inl (by simp [namesOf, h1])
        · rcases ihl h2 with h | h
          · exact Or.inl (by simp [namesOf]; right; left; exact h)
          · exact Or.inr h
        · exact Or.inl (by simp [namesOf]; right; right; exact h3)
      | right =>
        simp only [storeAt, namesOf, List.mem_cons, List.mem_append] at hx
        rcases hx with h1 | h2 | h3
        · exact Or.inl (by simp [namesOf, h1])
        · exact Or.inl (by simp [namesOf]; right; left; exact h2)
        · rcases ihr h3 with h | h
          · exact Or.inl (by simp [namesOf]; right; right; exact h)
          · exact Or.inr h

/-! ### Facts about `_jl_symbol` -/

theorem jl_symbol_long {st : SymTab} {str : List Nat} {len : Nat}
    (h : MAX_SYM_LEN < len) : _jl_symbol st str len = (st, .error .NameTooLong) := by
  simp [_jl_symbol, if_pos h]

theorem jl_symbol_found {st : SymTab} {str : List Nat} {len : Nat} {node : Sym}
    (hlen : len ≤ MAX_SYM_LEN) (hfd : (symtab_lookup str len st.tree).1 = some node) :
    _jl_symbol st str len = (st, .ok node) := by
  simp [_jl_symbol, Nat.not_lt.mpr hlen, hfd]

theorem jl_symbol_miss {st : SymTab} {str : List Nat} {len : Nat}
    (hlen : len ≤ MAX_SYM_LEN) (hfd : (symtab_lookup str len st.tree).1 = none) :
    _jl_symbol st str len
      = (⟨storeAt st.tree (symtab_lookup str len st.tree).2
            (.node (mk_symbol str len st.next) .nil .nil), st.next + 1⟩,
         .ok (mk_symbol str len st.next)) := by
  simp [_jl_symbol, Nat.not_lt.mpr hlen, hfd]

theorem jl_symbol_ok_of_le {st : SymTab} {str : List Nat} {len : Nat}
    (hlen : len ≤ MAX_SYM_LEN) : ∃ sym, (_jl_symbol st str len).2 = .ok sym := by
  cases hfd : (symtab_lookup str len st.tree).1 with
  | some node => exact ⟨node, by rw [jl_symbol_found hlen hfd]⟩
  | none => exact ⟨mk_symbol str len st.next, by rw [jl_symbol_miss hlen hfd]⟩

theorem jl_symbol_ne_embnul (st : SymTab) (str : List Nat) (len : Nat) :
    (_jl_symbol st str len).2 ≠ .error .EmbeddedNul := by
  by_cases hlen : len ≤ MAX_SYM_LEN
  · obtain ⟨sym, hs⟩ := @jl_symbol_ok_of_le st str _ hlen
    simp [hs]
  · rw [jl_symbol_long (by omega)]
    simp

/-- After a successful intern, looking the probe up in the new table returns
exactly the interned node. -/
theorem lookup_after_intern {st : SymTab} {str : List Nat} {len : Nat}
    (hlen : len ≤ MAX_SYM_LEN) :
    (symtab_lookup str len ((_jl_symbol st str len).1).tree).1
      = okSym ((_jl_symbol st str len).2) := by
  cases hfd : (symtab_lookup str len st.tree).1 with
  | some node => rw [jl_symbol_found hlen hfd]; exact hfd
  | none =>
    rw [jl_symbol_miss hlen hfd]
    show (symtab_lookup str len
        (storeAt st.tree (symtab_lookup str len st.tree).2
          (.node (mk_symbol str len st.next) .nil .nil))).1 = _
    unfold symtab_lookup at hfd ⊢
    rw [lookup_h_insert (symMatch_mk str len st.next) hfd]
    rfl

/-- Interning the same probe again returns the same handle and leaves the
table untouched. -/
theorem jl_symbol_idem {st : SymTab} {str : List Nat} {len : Nat}
    (hlen : len ≤ MAX_SYM_LEN) :
    _jl_symbol ((_jl_symbol st str len).1) str len = _jl_symbol st str len := by
  obtain ⟨sym, hs⟩ := @jl_symbol_ok_of_le st str _ hlen
  have hlk : (symtab_lookup str len ((_jl_symbol st str len).1).tree).1 = some sym := by
    rw [lookup_after_intern hlen, hs]; rfl
  rw [jl_symbol_found hlen hlk]
  exact Prod.ext rfl hs.symm

/-- The handle returned by a successful intern carries exactly the probe's
first `len` bytes as its name. -/
theorem jl_symbol_name {st : SymTab} {str : List Nat} {len : Nat} {sym : Sym}
    (hok : treeNamesOK st.tree = true) (hs : NoNulWithin str len)
    (h : (_jl_symbol st str len).2 = .ok sym) : sym.name = str.take len := by
  by_cases hlen : len ≤ MAX_SYM_LEN
  · cases hfd : (symtab_lookup str len st.tree).1 with
    | some node =>
      rw [jl_symbol_found hlen hfd] at h
      cases h
      exact (lookup_h_found hok hs hfd).1
    | none =>
      rw [jl_symbol_miss hlen hfd] at h
      cases h
      rfl
  · rw [jl_symbol_long (by omega)] at h
    cases h

theorem jl_symbol_namesOK {st : SymTab} {str : List Nat} {len : Nat}
    (hok : treeNamesOK st.tree = true) (hs : NoNulWithin str len) :
    treeNamesOK ((_jl_symbol st str len).1).tree = true := by
  by_cases hlen : len ≤ MAX_SYM_LEN
  · cases hfd : (symtab_lookup str len st.tree).1 with
    | some node => rw [jl_symbol_found hlen hfd]; exact hok
    | none =>
      rw [jl_symbol_miss hlen hfd]
      apply treeNamesOK_storeAt _ hok
      have hnc : (str.take len).contains 0 = false := by
        apply not_mem_contains_false
        intro hmem
        obtain ⟨i, hi, hget⟩ := List.getElem_of_mem hmem
        have hilen : i < len := by
          have := List.length_take_le len str
          omega
        have : byteAt (str.take len) i = 0 := by rw [byteAt_get hi, hget]
        rw [byteAt_take hilen] at this
        exact hs i hilen this
      simp only [treeNamesOK, mk_symbol, hnc, Bool.not_false, Bool.and_true, Bool.true_and]
  · rw [jl_symbol_long (by omega)]
    exact hok

/-- Every name present after an intern was either present before or is the
name just interned. -/
theorem jl_symbol_names_sub {st : SymTab} {str : List Nat} {len : Nat} {x : List Nat}
    (hx : x ∈ namesOf ((_jl_symbol st str len).1).tree) :
    x ∈ namesOf st.tree ∨ x = str.take len := by
  by_cases hlen : len ≤ MAX_SYM_LEN
  · cases hfd : (symtab_lookup str len st.tree).1 with
    | some node =>
      rw [jl_symbol_found hlen hfd] at hx
      exact Or.inl hx
    | none =>
      rw [jl_symbol_miss hlen hfd] at hx
      rcases namesOf_storeAt hx with h | h
      · exact Or.inl h
      · simp [namesOf, mk_symbol] at h
        exact Or.inr h
  · rw [jl_symbol_long (by omega)] at hx
    exact Or.inl hx

/-! ### `cstrlen`, digit strings and the size computation -/

theorem cstrlen_le_length : ∀ l : List Nat, cstrlen l ≤ l.length := by
  intro l
  induction l with
  | nil => exact Nat.le_refl _
  | cons b bs ih =>
    simp only [cstrlen]
    split
    · simp
    · simpa using ih

theorem cstrlen_of_not_mem : ∀ l : List Nat, 0 ∉ l → cstrlen l = l.length := by
  intro l
  induction l with
  | nil => intro _; rfl
  | cons b bs ih =>
    intro h
    have hb : b ≠ 0 := fun hh => h (by simp [hh])
    simp only [cstrlen, if_neg hb, List.length_cons]
    rw [ih fun hh => h (by simp [hh])]

theorem nonul_cstrlen : ∀ l : List Nat, NoNulWithin l (cstrlen l) := by
  intro l
  induction l with
  | nil => intro j hj _; simp [cstrlen] at hj
  | cons b bs ih =>
    intro j hj
    simp only [cstrlen] at hj
    by_cases hb : b = 0
    · rw [if_pos hb] at hj; omega
    · rw [if_neg hb] at hj
      cases j with
      | zero => exact hb
      | succ i => exact ih i (by omega)

theorem not_mem_of_nonul {l : List Nat} (h : NoNulWithin l l.length) : 0 ∉ l := by
  intro hm
  obtain ⟨i, hi, hget⟩ := List.getElem_of_mem hm
  exact h i hi (by rw [byteAt_get hi, hget])

theorem nonul_take_cstrlen (l : List Nat) : (l.take (cstrlen l)).contains 0 = false := by
  apply not_mem_contains_false
  intro hm
  obtain ⟨i, hi, hget⟩ := List.getElem_of_mem hm
  have hilen : i < cstrlen l := by
    have := List.length_take_le (cstrlen l) l
    omega
  have hz : byteAt (l.take (cstrlen l)) i = 0 := by rw [byteAt_get hi, hget]
  rw [byteAt_take hilen] at hz
  exact nonul_cstrlen l i hilen hz

theorem uint2strAux_ge : ∀ (fuel num : Nat) (acc : List Nat),
    (∀ b ∈ acc, 48 ≤ b) → ∀ b ∈ uint2strAux fuel num acc, 48 ≤ b := by
  intro fuel
  induction fuel with
  | zero => intro num acc hacc b hb; exact hacc b hb
  | succ f ih =>
    intro num acc hacc b hb
    simp only [uint2strAux] at hb
    have hacc2 : ∀ c ∈ (48 + num % 10) :: acc, 48 ≤ c := by
      intro c hc
      rcases List.mem_cons.mp hc with h | h
      · omega
      · exact hacc c h
    by_cases h10 : num / 10 > 0
    · rw [if_pos h10] at hb
      exact ih _ _ hacc2 b hb
    · rw [if_neg h10] at hb
      exact hacc2 b hb

theorem uint2str_not_mem (num : Nat) : 0 ∉ uint2strBytes num := by
  intro hm
  have := uint2strAux_ge 32 num [] (by simp) 0 hm
  omega

theorem uint2strAux_len : ∀ (fuel : Nat) (k num : Nat) (acc : List Nat), num < 10 ^ k →
    (uint2strAux fuel num acc).length ≤ k + 1 + acc.length := by
  intro fuel
  induction fuel with
  | zero => intro k num acc _; simp [uint2strAux]
  | succ f ih =>
    intro k num acc hk
    simp only [uint2strAux]
    by_cases h10 : num / 10 > 0
    · rw [if_pos h10]
      cases k with
      | zero => simp at hk; omega
      | succ k2 =>
        have hlt : num / 10 < 10 ^ k2 := by
          rw [Nat.div_lt_iff_lt_mul (by omega)]
          calc num < 10 ^ (k2 + 1) := hk
            _ = 10 ^ k2 * 10 := by ring
        have := ih k2 (num / 10) ((48 + num % 10) :: acc) hlt
        simp only [List.length_cons] at this
        omega
    · rw [if_neg h10]
      simp
      omega

theorem uint2str_len_le (num : Nat) (h : num < 2 ^ 32) :
    (uint2strBytes num).length ≤ 11 := by
  have h10 : num < 10 ^ 10 := by
    have : (2 : Nat) ^ 32 < 10 ^ 10 := by norm_num
    omega
  simpa using uint2strAux_len 32 10 num [] h10

theorem land_mask {x : Nat} (hx : x < U64) : x &&& (U64 - 8) = 8 * (x / 8) := by
  have hmask : U64 - 8 = (2 ^ 61 - 1) <<< 3 := by norm_num [U64, Nat.shiftLeft_eq]
  have hrhs : 8 * (x / 8) = (x >>> 3) <<< 3 := by
    rw [Nat.shiftRight_eq_div_pow, Nat.shiftLeft_eq]
    norm_num
    ring
  rw [hmask, hrhs]
  apply Nat.eq_of_testBit_eq
  intro i
  rw [Nat.testBit_and, Nat.testBit_shiftLeft, Nat.testBit_shiftLeft,
    Nat.testBit_two_pow_sub_one, Nat.testBit_shiftRight]
  by_cases h3 : 3 ≤ i
  · by_cases h64 : i < 64
    · have : i - 3 < 61 := by omega
      have h33 : 3 + (i - 3) = i := by omega
      simp [h3, this, h33]
    · have hfalse : x.testBit i = false :=
        Nat.testBit_lt_two_pow (by
          calc x < U64 := hx
            _ = 2 ^ 64 := rfl
            _ ≤ 2 ^ i := Nat.pow_le_pow_right (by omega) (by omega))
      have hfalse2 : x.testBit (3 + (i - 3)) = false := by
        have h33 : 3 + (i - 3) = i := by omega
        rw [h33, hfalse]
      simp [h3, hfalse, hfalse2]
  · simp [h3]

/-! ### Claim C1 -/

/-- C1: for a byte sequence with no embedded NUL and length at most
`MAX_SYM_LEN`, interning it twice returns the identical handle (and leaves
the table unchanged the second time), and interning two distinct byte
sequences returns distinct handles. -/
theorem intern_unique_handles :
    ∀ (st : SymTab) (s1 s2 : List Nat),
      treeNamesOK st.tree = true →
      NoNulWithin s1 s1.length → NoNulWithin s2 s2.length →
      s1.length ≤ MAX_SYM_LEN → s2.length ≤ MAX_SYM_LEN →
      _jl_symbol ((_jl_symbol st s1 s1.length).1) s1 s1.length = _jl_symbol st s1 s1.length ∧
      (s1 ≠ s2 →
        (_jl_symbol ((_jl_symbol st s1 s1.length).1) s2 s2.length).2
          ≠ (_jl_symbol st s1 s1.length).2) := by
  intro st s1 s2 hok hs1 hs2 hl1 hl2
  refine ⟨jl_symbol_idem hl1, ?_⟩
  intro hne heq
  obtain ⟨sym1, h1⟩ := @jl_symbol_ok_of_le st s1 _ hl1
  have hok1 : treeNamesOK ((_jl_symbol st s1 s1.length).1).tree = true :=
    jl_symbol_namesOK hok hs1
  obtain ⟨sym2, h2⟩ :=
    @jl_symbol_ok_of_le (_jl_symbol st s1 s1.length).1 s2 _ hl2
  have hn1 : sym1.name = s1 := by
    have := jl_symbol_name hok hs1 h1
    rwa [List.take_length] at this
  have hn2 : sym2.name = s2 := by
    have := jl_symbol_name hok1 hs2 h2
    rwa [List.take_length] at this
  rw [h1, h2] at heq
  cases heq
  exact hne (hn1 ▸ hn2 ▸ rfl)

theorem intern_unique_handles_witness :
    _jl_symbol ((_jl_symbol emptyTab [104] [104].length).1) [104] [104].length
      = _jl_symbol emptyTab [104] [104].length ∧
    (_jl_symbol ((_jl_symbol emptyTab [104] [104].length).1) [104, 105] [104, 105].length).2
      ≠ (_jl_symbol emptyTab [104] [104].length).2 := by
  have h := intern_unique_handles emptyTab [104] [104, 105]
    (by decide) (by decide) (by decide) (by decide) (by decide)
  exact ⟨h.1, h.2 (by decide)⟩

/-! ### Claim C3 -/

/-- C3: a lookup on the empty table (and, more generally, on any table not
holding the name) returns NotFound; after a successful intern of `s` the
lookup returns exactly the interned handle, and interning an unrelated name
cannot make `s` appear.  `jl_symbol_lookup` itself returns no state, so by
construction it neither allocates nor modifies the tree. -/
theorem lookup_find_contract :
    ∀ (st : SymTab) (s t : List Nat) (lt : Nat),
      treeNamesOK st.tree = true → NoNulWithin s s.length →
      jl_symbol_lookup emptyTab s = none ∧
      (s ∉ namesOf st.tree → jl_symbol_lookup st s = none) ∧
      (s.length ≤ MAX_SYM_LEN →
        jl_symbol_lookup ((_jl_symbol st s s.length).1) s
          = okSym ((_jl_symbol st s s.length).2)) ∧
      (s ∉ namesOf st.tree → t.take lt ≠ s →
        s ∉ namesOf ((_jl_symbol st t lt).1).tree) := by
  intro st s t lt hok hs
  have hcl : cstrlen s = s.length := cstrlen_of_not_mem s (not_mem_of_nonul hs)
  refine ⟨rfl, ?_, ?_, ?_⟩
  · intro hnot
    cases hfd : jl_symbol_lookup st s with
    | none => rfl
    | some sym =>
      exfalso
      unfold jl_symbol_lookup at hfd
      rw [hcl] at hfd
      obtain ⟨hname, hmem⟩ := lookup_h_found hok hs hfd
      rw [List.take_length] at hname
      exact hnot (hname ▸ hmem)
  · intro hlen
    unfold jl_symbol_lookup
    rw [hcl]
    exact lookup_after_intern hlen
  · intro hnot hne hmem
    rcases jl_symbol_names_sub hmem with h | h
    · exact hnot h
    · exact hne h.symm

theorem lookup_find_contract_witness :
    jl_symbol_lookup emptyTab [104] = none ∧
    jl_symbol_lookup emptyTab [104] = none ∧
    jl_symbol_lookup ((_jl_symbol emptyTab [104] [104].length).1) [104]
      = okSym ((_jl_symbol emptyTab [104] [104].length).2) ∧
    [104] ∉ namesOf ((_jl_symbol emptyTab [105] 1).1).tree := by
  have h := lookup_find_contract emptyTab [104] [105] 1 (by decide) (by decide)
  exact ⟨h.1, h.2.1 (by decide), h.2.2.1 (by decide), h.2.2.2 (by decide) (by decide)⟩

/-! ### Claim C7 -/

/-- C7: an intern with length at most `MAX_SYM_LEN` succeeds, and one with a
larger length fails with NameTooLong before touching the table: the returned
state is exactly the input state. -/
theorem intern_len_boundary :
    ∀ (st : SymTab) (str : List Nat) (len : Nat),
      (len ≤ MAX_SYM_LEN → okName ((_jl_symbol st str len).2) ≠ none) ∧
      (MAX_SYM_LEN < len → _jl_symbol st str len = (st, .error .NameTooLong)) := by
  intro st str len
  constructor
  · intro hlen
    obtain ⟨sym, hs⟩ := @jl_symbol_ok_of_le st str _ hlen
    rw [hs]
    simp [okName]
  · intro hlen
    exact jl_symbol_long hlen

theorem intern_len_boundary_witness :
    okName ((_jl_symbol emptyTab [104] 1).2) ≠ none ∧
    _jl_symbol emptyTab [] (MAX_SYM_LEN + 1) = (emptyTab, .error .NameTooLong) := by
  exact ⟨(intern_len_boundary emptyTab [104] 1).1 (by decide),
    (intern_len_boundary emptyTab [] (MAX_SYM_LEN + 1)).2 (by omega)⟩

/-! ### Claim C8 -/

/-- C8: `jl_symbol_n` fails with EmbeddedNul exactly when a 0 byte occurs
within the first `len` bytes, leaving the table unchanged; on NUL-free input
it behaves identically to `_jl_symbol`. -/
theorem symbol_n_embedded_nul :
    ∀ (st : SymTab) (str : List Nat) (len : Nat),
      ((jl_symbol_n st str len).2 = .error .EmbeddedNul ↔
        (str.take len).contains 0 = true) ∧
      ((str.take len).contains 0 = true →
        jl_symbol_n st str len = (st, .error .EmbeddedNul)) ∧
      ((str.take len).contains 0 = false →
        jl_symbol_n st str len = _jl_symbol st str len) := by
  intro st str len
  by_cases hc : (str.take len).contains 0 = true
  · have heq : jl_symbol_n st str len = (st, .error .EmbeddedNul) := by
      unfold jl_symbol_n
      rw [if_pos hc]
    refine ⟨?_, fun _ => heq, ?_⟩
    · rw [heq, hc]
      simp
    · intro h; rw [hc] at h; cases h
  · have hc2 : (str.take len).contains 0 = false := by
      simpa using hc
    have heq : jl_symbol_n st str len = _jl_symbol st str len := by
      unfold jl_symbol_n
      rw [if_neg hc]
    refine ⟨?_, ?_, fun _ => heq⟩
    · rw [heq, hc2]
      simp only [Bool.false_eq_true, iff_false]
      exact jl_symbol_ne_embnul st str len
    · intro h; rw [hc2] at h; cases h

theorem symbol_n_embedded_nul_witness :
    jl_symbol_n emptyTab [0] 1 = (emptyTab, .error .EmbeddedNul) ∧
    jl_symbol_n emptyTab [104] 1 = _jl_symbol emptyTab [104] 1 := by
  exact ⟨(symbol_n_embedded_nul emptyTab [0] 1).2.1 (by decide),
    (symbol_n_embedded_nul emptyTab [104] 1).2.2 (by decide)⟩

/-! ### Claim C9 -/

/-- C9: for any representable name length, the byte count requested from the
permanent allocator is a multiple of 8 and covers the node header, the name
and the terminator: it is exactly `sizeof(jl_sym_t) + len + 1` rounded up to
the next multiple of 8. -/
theorem symbol_nbytes_spec :
    ∀ len : Nat, len ≤ MAX_SYM_LEN →
      symbol_nbytes len % 8 = 0 ∧
      sizeof_jl_sym_t + len + 1 ≤ symbol_nbytes len ∧
      symbol_nbytes len = 8 * ((sizeof_jl_sym_t + len + 1 + 7) / 8) := by
  intro len hlen
  have hmax : MAX_SYM_LEN = 2 ^ 63 - 34 := by
    norm_num [MAX_SYM_LEN, INTPTR_MAX, sizeof_jl_taggedvalue_t, sizeof_jl_sym_t]
  have h63 : (2 : Nat) ^ 63 = 9223372036854775808 := by norm_num
  have h64 : U64 = 18446744073709551616 := by norm_num [U64]
  have hx : sizeof_jl_sym_t + len + 1 + 7 < U64 := by
    simp only [sizeof_jl_sym_t]
    omega
  have hmod : (sizeof_jl_sym_t + len + 1 + 7) % U64 = sizeof_jl_sym_t + len + 1 + 7 :=
    Nat.mod_eq_of_lt hx
  have hval : symbol_nbytes len = 8 * ((sizeof_jl_sym_t + len + 1 + 7) / 8) := by
    unfold symbol_nbytes
    rw [hmod]
    exact land_mask hx
  refine ⟨?_, ?_, hval⟩
  · rw [hval]
    exact Nat.mul_mod_right 8 _
  · rw [hval]
    simp only [sizeof_jl_sym_t]
    omega

theorem symbol_nbytes_spec_witness :
    symbol_nbytes 5 % 8 = 0 ∧
    sizeof_jl_sym_t + 5 + 1 ≤ symbol_nbytes 5 ∧
    symbol_nbytes 5 = 8 * ((sizeof_jl_sym_t + 5 + 1 + 7) / 8) :=
  symbol_nbytes_spec 5 (by norm_num [MAX_SYM_LEN, INTPTR_MAX, sizeof_jl_taggedvalue_t,
    sizeof_jl_sym_t])

/-! ### Claim C2 -/

/-- C2 counterexample: the probe `"a"` hashes numerically *greater* than the
node `"c"` stored by a real intern, yet the search descends to the left
child, because descent is steered by the wraparound difference
`(intptr_t)(h - node->hash)`, not by a numeric comparison of the hashes. -/
theorem symtab_order_numeric_cex :
    hash_symbol [99] 1 < hash_symbol [97] 1 ∧
    (symtab_lookup [97] 1 ((_jl_symbol emptyTab [99] 1).1.tree)).2 = [Dir.left] := by
  constructor
  · decide
  · decide

/-- C2 as amended: at every node the probe's hash word is compared to the
node's hash word by their 64-bit wraparound difference interpreted as a
signed `intptr_t` — descend left exactly when that difference is at least
`2 ^ 63` (negative as a machine word), else right; on a zero difference the
search falls back to `strncmp` truncated to the probe's length, with the
extra terminator check deciding a hit, and a byte-equal prefix whose
terminator check fails descends right. -/
theorem symtab_order_signed_diff :
    ∀ (sym : Sym) (l r : STree) (str : List Nat) (len : Nat),
      (wsub (hash_symbol str len) sym.hash ≠ 0 →
        symtab_lookup str len (.node sym l r)
          = if 2 ^ 63 ≤ wsub (hash_symbol str len) sym.hash
            then ((symtab_lookup str len l).1, Dir.left :: (symtab_lookup str len l).2)
            else ((symtab_lookup str len r).1, Dir.right :: (symtab_lookup str len r).2)) ∧
      (wsub (hash_symbol str len) sym.hash = 0 → strncmp str sym.name len < 0 →
        symtab_lookup str len (.node sym l r)
          = ((symtab_lookup str len l).1, Dir.left :: (symtab_lookup str len l).2)) ∧
      (wsub (hash_symbol str len) sym.hash = 0 → 0 < strncmp str sym.name len →
        symtab_lookup str len (.node sym l r)
          = ((symtab_lookup str len r).1, Dir.right :: (symtab_lookup str len r).2)) ∧
      (wsub (hash_symbol str len) sym.hash = 0 → strncmp str sym.name len = 0 →
        byteAt sym.name len = 0 →
        symtab_lookup str len (.node sym l r) = (some sym, [])) ∧
      (wsub (hash_symbol str len) sym.hash = 0 → strncmp str sym.name len = 0 →
        byteAt sym.name len ≠ 0 →
        symtab_lookup str len (.node sym l r)
          = ((symtab_lookup str len r).1, Dir.right :: (symtab_lookup str len r).2)) := by
  intro sym l r str len
  have hdlt : wsub (hash_symbol str len) sym.hash < U64 := wsub_lt _ _
  refine ⟨?_, ?_, ?_, ?_, ?_⟩
  · intro hd
    have hx0 : toSigned (wsub (hash_symbol str len) sym.hash) ≠ 0 :=
      fun h => hd ((toSigned_eq_zero_iff hdlt).mp h)
    have hm : ¬ symMatch (hash_symbol str len) str len sym := fun hmm => hx0 hmm.1
    have hcmp : cmpAt (hash_symbol str len) str len sym
        = toSigned (wsub (hash_symbol str len) sym.hash) := by
      unfold cmpAt
      rw [if_neg hx0]
    by_cases hs : 2 ^ 63 ≤ wsub (hash_symbol str len) sym.hash
    · have hneg : cmpAt (hash_symbol str len) str len sym < 0 := by
        rw [hcmp, toSigned_neg_iff hdlt]
        exact hs
      rw [if_pos hs]
      show symtab_lookup_h _ _ _ _ = _
      rw [symtab_lookup_h, if_neg hm, if_pos hneg]
      rfl
    · have hpos : ¬ cmpAt (hash_symbol str len) str len sym < 0 := by
        rw [hcmp, toSigned_neg_iff hdlt]
        exact hs
      rw [if_neg hs]
      show symtab_lookup_h _ _ _ _ = _
      rw [symtab_lookup_h, if_neg hm, if_neg hpos]
      rfl
  · intro hd hlt
    have hm : ¬ symMatch (hash_symbol str len) str len sym := fun hmm => by
      rw [hmm.2.1] at hlt
      omega
    have hcmp : cmpAt (hash_symbol str len) str len sym = strncmp str sym.name len := by
      unfold cmpAt
      rw [if_pos (by rw [toSigned_eq_zero_iff hdlt]; exact hd)]
    show symtab_lookup_h _ _ _ _ = _
    rw [symtab_lookup_h, if_neg hm, if_pos (by rw [hcmp]; exact hlt)]
    rfl
  · intro hd hgt
    have hm : ¬ symMatch (hash_symbol str len) str len sym := fun hmm => by
      rw [hmm.2.1] at hgt
      omega
    have hcmp : cmpAt (hash_symbol str len) str len sym = strncmp str sym.name len := by
      unfold cmpAt
      rw [if_pos (by rw [toSigned_eq_zero_iff hdlt]; exact hd)]
    show symtab_lookup_h _ _ _ _ = _
    rw [symtab_lookup_h, if_neg hm, if_neg (by rw [hcmp]; omega)]
    rfl
  · intro hd hz hterm
    have hm : symMatch (hash_symbol str len) str len sym :=
      ⟨by rw [toSigned_eq_zero_iff hdlt]; exact hd, hz, hterm⟩
    show symtab_lookup_h _ _ _ _ = _
    rw [symtab_lookup_h, if_pos hm]
  · intro hd hz hterm
    have hm : ¬ symMatch (hash_symbol str len) str len sym := fun hmm => hterm hmm.2.2
    have hcmp : cmpAt (hash_symbol str len) str len sym = strncmp str sym.name len := by
      unfold cmpAt
      rw [if_pos (by rw [toSigned_eq_zero_iff hdlt]; exact hd)]
    show symtab_lookup_h _ _ _ _ = _
    rw [symtab_lookup_h, if_neg hm, if_neg (by rw [hcmp]; omega)]
    rfl

theorem symtab_order_signed_diff_witness :
    (symtab_lookup [97] 1 (.node ⟨0, hash_symbol [99] 1, [99]⟩ .nil .nil)
      = if 2 ^ 63 ≤ wsub (hash_symbol [97] 1) (hash_symbol [99] 1)
        then ((symtab_lookup [97] 1 .nil).1, Dir.left :: (symtab_lookup [97] 1 .nil).2)
        else ((symtab_lookup [97] 1 .nil).1, Dir.right :: (symtab_lookup [97] 1 .nil).2)) ∧
    symtab_lookup [99] 1 (.node ⟨0, hash_symbol [99] 1, [99]⟩ .nil .nil)
      = (some ⟨0, hash_symbol [99] 1, [99]⟩, []) := by
  have h1 := symtab_order_signed_diff ⟨0, hash_symbol [99] 1, [99]⟩ .nil .nil [97] 1
  have h2 := symtab_order_signed_diff ⟨0, hash_symbol [99] 1, [99]⟩ .nil .nil [99] 1
  exact ⟨h1.1 (by decide), h2.2.2.2.1 (by decide) (by decide) (by decide)⟩

/-! ### Gensym lemmas -/

theorem jl_gensym_eq (r : Registry) :
    jl_gensym r
      = (⟨(jl_symbol r.tab (35 :: 35 :: uint2strBytes r.gs_ctr)).1,
          (r.gs_ctr + 1) % 2 ^ 32⟩,
         (jl_symbol r.tab (35 :: 35 :: uint2strBytes r.gs_ctr)).2) := rfl

theorem gensym_name_not_mem (ctr : Nat) : 0 ∉ (35 :: 35 :: uint2strBytes ctr : List Nat) := by
  intro hm
  simp only [List.mem_cons] at hm
  rcases hm with h | h | h
  · exact absurd h (by decide)
  · exact absurd h (by decide)
  · exact uint2str_not_mem ctr h

theorem max_sym_len_large : 13 ≤ MAX_SYM_LEN := by
  norm_num [MAX_SYM_LEN, INTPTR_MAX, sizeof_jl_taggedvalue_t, sizeof_jl_sym_t]

/-- One `jl_gensym` call: the result is the interned `"##" ++ digits` of the
pre-increment counter value, the counter advances by one mod `2 ^ 32`, and
table well-formedness is preserved. -/
theorem jl_gensym_ok (r : Registry) (hok : treeNamesOK r.tab.tree = true)
    (hctr : r.gs_ctr < 2 ^ 32) :
    okName ((jl_gensym r).2) = some (35 :: 35 :: uint2strBytes r.gs_ctr) ∧
    (jl_gensym r).1.gs_ctr = (r.gs_ctr + 1) % 2 ^ 32 ∧
    treeNamesOK (jl_gensym r).1.tab.tree = true := by
  have hnm := gensym_name_not_mem r.gs_ctr
  have hcl : cstrlen (35 :: 35 :: uint2strBytes r.gs_ctr)
      = (35 :: 35 :: uint2strBytes r.gs_ctr).length := cstrlen_of_not_mem _ hnm
  have hnn : NoNulWithin (35 :: 35 :: uint2strBytes r.gs_ctr)
      (35 :: 35 :: uint2strBytes r.gs_ctr).length := nonul_of_not_mem hnm
  have hd := uint2str_len_le r.gs_ctr hctr
  have hlen : (35 :: 35 :: uint2strBytes r.gs_ctr).length ≤ MAX_SYM_LEN := by
    have := max_sym_len_large
    simp only [List.length_cons]
    omega
  obtain ⟨sym, hs⟩ :=
    @jl_symbol_ok_of_le r.tab (35 :: 35 :: uint2strBytes r.gs_ctr) _ hlen
  refine ⟨?_, rfl, ?_⟩
  · rw [jl_gensym_eq]
    show okName ((_jl_symbol r.tab (35 :: 35 :: uint2strBytes r.gs_ctr)
        (cstrlen (35 :: 35 :: uint2strBytes r.gs_ctr))).2) = _
    rw [hcl, hs]
    have hname := jl_symbol_name hok hnn hs
    rw [List.take_length] at hname
    show some sym.name = _
    rw [hname]
  · rw [jl_gensym_eq]
    show treeNamesOK ((_jl_symbol r.tab (35 :: 35 :: uint2strBytes r.gs_ctr)
        (cstrlen (35 :: 35 :: uint2strBytes r.gs_ctr))).1).tree = true
    rw [hcl]
    exact jl_symbol_namesOK hok hnn

/-! ### Claim C5 -/

/-- C5 counterexample: with the counter set to `2 ^ 32 - 1`, the very next
`jl_gensym` call names the symbol after the pre-increment value
`"##4294967295"`, not `"##0"` as the claim states. -/
theorem gensym_wrap_cex :
    okName ((jl_gensym (jl_set_gs_ctr emptyReg (2 ^ 32 - 1))).2) ≠ some [35, 35, 48] ∧
    okName ((jl_gensym (jl_set_gs_ctr emptyReg (2 ^ 32 - 1))).2)
      = some [35, 35, 52, 50, 57, 52, 57, 54, 55, 50, 57, 53] := by
  constructor
  · decide
  · decide

/-- C5 as amended: every `jl_gensym` call returns the interned symbol named
`"##"` followed by the decimal digits of the pre-increment counter value and
advances the counter by one mod `2 ^ 32`; after `setCounter(2 ^ 32 - 1)` the
next call therefore yields `"##4294967295"` while the counter wraps to 0, and
it is the call after that one which yields `"##0"`. -/
theorem gensym_names :
    ∀ r : Registry, treeNamesOK r.tab.tree = true → r.gs_ctr < 2 ^ 32 →
      okName ((jl_gensym r).2) = some (35 :: 35 :: uint2strBytes r.gs_ctr) ∧
      (jl_gensym r).1.gs_ctr = (r.gs_ctr + 1) % 2 ^ 32 ∧
      (r.gs_ctr = 2 ^ 32 - 1 →
        okName ((jl_gensym r).2) = some [35, 35, 52, 50, 57, 52, 57, 54, 55, 50, 57, 53] ∧
        okName ((jl_gensym (jl_gensym r).1).2) = some [35, 35, 48] ∧
        (jl_gensym (jl_gensym r).1).1.gs_ctr = 1) := by
  intro r hok hctr
  obtain ⟨h1, h2, h3⟩ := jl_gensym_ok r hok hctr
  refine ⟨h1, h2, ?_⟩
  intro hmax
  have hzero : (jl_gensym r).1.gs_ctr = 0 := by
    rw [h2, hmax]
    norm_num
  obtain ⟨g1, g2, _⟩ := jl_gensym_ok (jl_gensym r).1 h3 (by rw [hzero]; norm_num)
  refine ⟨?_, ?_, ?_⟩
  · rw [h1, hmax]
    rfl
  · rw [g1, hzero]
    rfl
  · rw [g2, hzero]
    norm_num

theorem gensym_names_witness :
    okName ((jl_gensym (jl_set_gs_ctr emptyReg (2 ^ 32 - 1))).2)
      = some (35 :: 35 :: uint2strBytes (jl_set_gs_ctr emptyReg (2 ^ 32 - 1)).gs_ctr) ∧
    (jl_gensym (jl_set_gs_ctr emptyReg (2 ^ 32 - 1))).1.gs_ctr
      = ((jl_set_gs_ctr emptyReg (2 ^ 32 - 1)).gs_ctr + 1) % 2 ^ 32 ∧
    okName ((jl_gensym (jl_set_gs_ctr emptyReg (2 ^ 32 - 1))).2)
      = some [35, 35, 52, 50, 57, 52, 57, 54, 55, 50, 57, 53] ∧
    okName ((jl_gensym (jl_gensym (jl_set_gs_ctr emptyReg (2 ^ 32 - 1))).1).2)
      = some [35, 35, 48] ∧
    (jl_gensym (jl_gensym (jl_set_gs_ctr emptyReg (2 ^ 32 - 1))).1).1.gs_ctr = 1 := by
  have h := gensym_names (jl_set_gs_ctr emptyReg (2 ^ 32 - 1)) (by decide) (by decide)
  obtain ⟨w1, w2, w3⟩ := h.2.2 (by decide)
  exact ⟨h.1, h.2.1, w1, w2, w3⟩

/-! ### Tagged-gensym lemmas -/

theorem tagged_core_long {r : Registry} {str : List Nat} {len : Nat}
    (h : MAX_SYM_LEN < 14 + len + 3) :
    tagged_gensym_core r str len = (r, .error .NameTooLong) := by
  unfold tagged_gensym_core
  rw [if_pos (Or.inr h)]

theorem tagged_core_ok {r : Registry} {str : List Nat} {len : Nat}
    (h : ¬(len > MAX_SYM_LEN ∨ 14 + len + 3 > MAX_SYM_LEN)) :
    tagged_gensym_core r str len
      = (⟨(_jl_symbol r.tab (35 :: 35 :: (str.take len ++ 35 :: uint2strBytes r.gs_ctr))
            (len + 3 + (uint2strBytes r.gs_ctr).length)).1, (r.gs_ctr + 1) % 2 ^ 32⟩,
         (_jl_symbol r.tab (35 :: 35 :: (str.take len ++ 35 :: uint2strBytes r.gs_ctr))
            (len + 3 + (uint2strBytes r.gs_ctr).length)).2) := by
  unfold tagged_gensym_core
  rw [if_neg h]

theorem tagged_core_ne_embnul (r : Registry) (str : List Nat) (len : Nat) :
    (tagged_gensym_core r str len).2 ≠ .error .EmbeddedNul := by
  by_cases h : len > MAX_SYM_LEN ∨ 14 + len + 3 > MAX_SYM_LEN
  · unfold tagged_gensym_core
    rw [if_pos h]
    simp
  · rw [tagged_core_ok h]
    exact jl_symbol_ne_embnul _ _ _

theorem tagged_sentinel_eq (r : Registry) (str : List Nat) :
    jl_tagged_gensym r str (U64 - 1) = tagged_gensym_core r str (cstrlen str) := by
  unfold jl_tagged_gensym
  rw [if_pos rfl]

theorem tagged_emb {r : Registry} {str : List Nat} {len : Nat}
    (hs : len ≠ U64 - 1) (hc : (str.take len).contains 0 = true) :
    jl_tagged_gensym r str len = (r, .error .EmbeddedNul) := by
  unfold jl_tagged_gensym
  rw [if_neg hs, if_pos hc]

theorem tagged_clean {r : Registry} {str : List Nat} {len : Nat}
    (hs : len ≠ U64 - 1) (hc : (str.take len).contains 0 = false) :
    jl_tagged_gensym r str len = tagged_gensym_core r str len := by
  unfold jl_tagged_gensym
  rw [if_neg hs, if_neg (by rw [hc]; exact Bool.false_ne_true)]

/-! ### Claim C6 -/

/-- C6: with a non-sentinel tag length, `jl_tagged_gensym` fails with
EmbeddedNul on a NUL inside the scanned tag bytes and with NameTooLong when
the total name would exceed the maximum, both before the counter moves or the
symbol is interned (the state returned is the input state); otherwise it
interns `"##" ++ tag ++ "#" ++ digits(ctr)` for the pre-increment counter
value and advances the counter. -/
theorem tagged_gensym_spec :
    ∀ (r : Registry) (tag : List Nat) (len : Nat),
      len ≠ U64 - 1 → treeNamesOK r.tab.tree = true → r.gs_ctr < 2 ^ 32 →
      ((tag.take len).contains 0 = true →
        jl_tagged_gensym r tag len = (r, .error .EmbeddedNul)) ∧
      ((tag.take len).contains 0 = false →
        MAX_SYM_LEN < len + 3 + (uint2strBytes r.gs_ctr).length →
        jl_tagged_gensym r tag len = (r, .error .NameTooLong)) ∧
      ((tag.take len).contains 0 = false → len ≤ tag.length →
        len + 17 ≤ MAX_SYM_LEN →
        okName ((jl_tagged_gensym r tag len).2)
          = some (35 :: 35 :: (tag.take len ++ 35 :: uint2strBytes r.gs_ctr)) ∧
        (jl_tagged_gensym r tag len).1.gs_ctr = (r.gs_ctr + 1) % 2 ^ 32) := by
  intro r tag len hsent hok hctr
  have hd := uint2str_len_le r.gs_ctr hctr
  refine ⟨fun hc => tagged_emb hsent hc, ?_, ?_⟩
  · intro hc htot
    rw [tagged_clean hsent hc]
    exact tagged_core_long (by omega)
  · intro hc hlt h17
    have hnotor : ¬(len > MAX_SYM_LEN ∨ 14 + len + 3 > MAX_SYM_LEN) := by omega
    rw [tagged_clean hsent hc, tagged_core_ok hnotor]
    have hnm : 0 ∉ (35 :: 35 :: (tag.take len ++ 35 :: uint2strBytes r.gs_ctr) : List Nat) := by
      intro hm
      simp only [List.mem_cons, List.mem_append] at hm
      rcases hm with h | h | h | h | h
      · exact absurd h (by decide)
      · exact absurd h (by decide)
      · exact contains_false_not_mem hc h
      · exact absurd h (by decide)
      · exact uint2str_not_mem _ h
    have hnmlen : (35 :: 35 :: (tag.take len ++ 35 :: uint2strBytes r.gs_ctr) : List Nat).length
        = len + 3 + (uint2strBytes r.gs_ctr).length := by
      simp only [List.length_cons, List.length_append, List.length_take,
        Nat.min_eq_left hlt]
      omega
    have hlen2 : len + 3 + (uint2strBytes r.gs_ctr).length ≤ MAX_SYM_LEN := by omega
    obtain ⟨sym, hs⟩ := @jl_symbol_ok_of_le r.tab
      (35 :: 35 :: (tag.take len ++ 35 :: uint2strBytes r.gs_ctr)) _ hlen2
    have hnn : NoNulWithin (35 :: 35 :: (tag.take len ++ 35 :: uint2strBytes r.gs_ctr))
        (len + 3 + (uint2strBytes r.gs_ctr).length) := by
      rw [← hnmlen]
      exact nonul_of_not_mem hnm
    have hname := jl_symbol_name hok hnn hs
    rw [← hnmlen, List.take_length] at hname
    constructor
    · show okName ((_jl_symbol r.tab (35 :: 35 :: (tag.take len ++ 35 :: uint2strBytes r.gs_ctr))
          (len + 3 + (uint2strBytes r.gs_ctr).length)).2) = _
      rw [hs]
      show some sym.name = _
      rw [hname]
    · rfl

theorem tagged_gensym_spec_witness :
    jl_tagged_gensym emptyReg [102, 0, 111] 3 = (emptyReg, .error .EmbeddedNul) ∧
    jl_tagged_gensym emptyReg [102, 111, 111] MAX_SYM_LEN
      = (emptyReg, .error .NameTooLong) ∧
    okName ((jl_tagged_gensym emptyReg [102, 111, 111] 3).2)
      = some (35 :: 35 :: (([102, 111, 111] : List Nat).take 3
          ++ 35 :: uint2strBytes emptyReg.gs_ctr)) ∧
    (jl_tagged_gensym emptyReg [102, 111, 111] 3).1.gs_ctr
      = (emptyReg.gs_ctr + 1) % 2 ^ 32 := by
  have h1 := tagged_gensym_spec emptyReg [102, 0, 111] 3 (by decide) (by decide) (by decide)
  have h2 := tagged_gensym_spec emptyReg [102, 111, 111] MAX_SYM_LEN
    (by decide) (by decide) (by decide)
  have h3 := tagged_gensym_spec emptyReg [102, 111, 111] 3 (by decide) (by decide) (by decide)
  obtain ⟨w1, w2⟩ := h3.2.2 (by decide) (by decide) (by decide)
  exact ⟨h1.1 (by decide), h2.2.1 (by decide) (by decide), w1, w2⟩

/-! ### Claim C10 -/

/-- C10: the tag length `(size_t)-1` is a sentinel meaning "NUL-terminated
tag": the tag length is recomputed as `strlen(tag)` and the embedded-NUL scan
is skipped, so a sentinel call can never fail with EmbeddedNul; for every
other tag length the scan covers exactly the first `len` tag bytes. -/
theorem tagged_gensym_sentinel :
    ∀ (r : Registry) (tag : List Nat) (len : Nat),
      (jl_tagged_gensym r tag (U64 - 1)).2 ≠ .error .EmbeddedNul ∧
      (len ≠ U64 - 1 →
        ((jl_tagged_gensym r tag len).2 = .error .EmbeddedNul ↔
          (tag.take len).contains 0 = true)) ∧
      (tag.length < U64 - 1 →
        jl_tagged_gensym r tag (U64 - 1) = jl_tagged_gensym r tag (cstrlen tag)) := by
  intro r tag len
  refine ⟨?_, ?_, ?_⟩
  · rw [tagged_sentinel_eq]
    exact tagged_core_ne_embnul _ _ _
  · intro hsent
    by_cases hc : (tag.take len).contains 0 = true
    · rw [tagged_emb hsent hc, hc]
      simp
    · have hc2 : (tag.take len).contains 0 = false := by simpa using hc
      rw [tagged_clean hsent hc2, hc2]
      simp only [Bool.false_eq_true, iff_false]
      exact tagged_core_ne_embnul _ _ _
  · intro hlen
    rw [tagged_sentinel_eq]
    have hne : cstrlen tag ≠ U64 - 1 := by
      have := cstrlen_le_length tag
      omega
    rw [tagged_clean hne (nonul_take_cstrlen tag)]

theorem tagged_gensym_sentinel_witness :
    (jl_tagged_gensym emptyReg [102, 0, 111] (U64 - 1)).2 ≠ .error .EmbeddedNul ∧
    ((jl_tagged_gensym emptyReg [102, 0, 111] 3).2 = .error .EmbeddedNul ↔
      (([102, 0, 111] : List Nat).take 3).contains 0 = true) ∧
    jl_tagged_gensym emptyReg [102, 0, 111] (U64 - 1)
      = jl_tagged_gensym emptyReg [102, 0, 111] (cstrlen [102, 0, 111]) := by
  have h := tagged_gensym_sentinel emptyReg [102, 0, 111] 3
  exact ⟨h.1, h.2.1 (by decide), h.2.2 (by decide)⟩

end SymbolC
